import Mathlib

/-!
Shallow embedding of the HTTP transport layer of the `mql-sdk-lts` client
library (`src/client.ts`), together with theorems settling the spec claims
about it.

Modelling conventions:
* character data that the code manipulates structurally (URLs, stream text)
  is modelled as `List Char`; data only compared for equality (header names
  and values, error messages) is modelled as `String`;
* JavaScript `undefined`-able fields become `Option`; the JS truthiness of
  `x || d` (where `0`, `""` and `undefined` are falsy) and the nullish
  coalescing `x ?? d` are modelled explicitly;
* the pluggable `fetch` transport is a type parameter `F`; for claims about
  the retry loop it is instantiated with `Nat → TransportResult`, a function
  from the attempt index (`retryCount`) to the outcome of that attempt.
-/

namespace MQL

/-- Error body shape `\x7b error, code?, details? \x7d` (`MQLError` in
`src/types.ts`); the unconstrained `details` record is kept as an opaque
optional string. -/
structure MQLError where
  error : String
  code : Option String
  details : Option String
deriving DecidableEq, Repr

/-- Raised error class `MQLAPIError` (`src/client.ts`): message, HTTP
status, optional code and details. -/
structure MQLAPIError where
  message : String
  status : Nat
  code : Option String
  details : Option String
deriving DecidableEq, Repr

/-- Static builder `MQLAPIError.fromResponse`: the raised error from a
parsed error body and the response status. -/
def MQLAPIError.fromResponse (e : MQLError) (status : Nat) : MQLAPIError :=
  ⟨e.error, status, e.code, e.details⟩

/-- Constructor options `MQLClientOptions` (`src/types.ts`); every field is
optional.  `F` is the type of the pluggable fetch implementation. -/
structure MQLClientOptions (F : Type) where
  baseUrl : Option (List Char) := none
  apiKey : Option String := none
  token : Option String := none
  timeout : Option Nat := none
  maxRetries : Option Nat := none
  fetch : Option F := none

/-- JS `x || d` on an optional string operand: `undefined` and the empty
string are falsy. -/
def orElseStr (x : Option (List Char)) (d : List Char) : List Char :=
  match x with
  | none => d
  | some s => if s = [] then d else s

/-- JS `x || d` on an optional number operand: `undefined` and `0` are
falsy. -/
def orElseNum (x : Option Nat) (d : Nat) : Nat :=
  match x with
  | none => d
  | some n => if n = 0 then d else n

/-- Base-URL normalization `.replace(regex trailing-slash, empty)`: the
regex is anchored at the end and not global, so it removes exactly one
trailing slash when one is present. -/
def stripTrailingSlash (s : List Char) : List Char :=
  if s.getLast? = some '/' then s.dropLast else s

/-- Default production base URL of the constructor. -/
def defaultBaseUrl : List Char := "https://api.metriqual.com".toList

/-- Stored configuration fields of an `HttpClient` (`src/client.ts`). -/
structure HttpClient (F : Type) where
  baseUrl : List Char
  apiKey : Option String
  token : Option String
  timeout : Nat
  maxRetries : Nat
  fetchFn : F

/-- Field assignments of the `HttpClient` constructor, given the resolved
fetch implementation `f`. -/
def HttpClient.ofOptions (options : MQLClientOptions F) (f : F) : HttpClient F :=
  { baseUrl := stripTrailingSlash (orElseStr options.baseUrl defaultBaseUrl)
    apiKey := options.apiKey
    token := options.token
    timeout := orElseNum options.timeout 30000
    maxRetries := orElseNum options.maxRetries 3
    fetchFn := f }

/-- Full `HttpClient` constructor: resolve `options.fetch || globalThis.fetch`
(`globalFetch = none` models an environment without a global fetch), throw
when neither is available, otherwise assign the fields. -/
def HttpClient.construct (options : MQLClientOptions F) (globalFetch : Option F) :
    Except String (HttpClient F) :=
  match options.fetch.orElse (fun _ => globalFetch) with
  | none => .error "fetch is not available. Please provide a fetch implementation via the options."
  | some f => .ok (HttpClient.ofOptions options f)

/-- Credential swap `HttpClient.updateAuth`: rebuild a client through the
constructor from the current fields, with `options.apiKey ?? this.apiKey`
and `options.token ?? this.token` as the credentials. -/
def HttpClient.updateAuth (c : HttpClient F) (apiKey? token? : Option String) :
    HttpClient F :=
  HttpClient.ofOptions
    { baseUrl := some c.baseUrl
      apiKey := apiKey?.orElse (fun _ => c.apiKey)
      token := token?.orElse (fun _ => c.token)
      timeout := some c.timeout
      maxRetries := some c.maxRetries
      fetch := some c.fetchFn }
    c.fetchFn

/-- JS truthiness of an optional string: `undefined` and `""` are falsy. -/
def truthyStr : Option String → Bool
  | none => false
  | some s => s != ""

/-- JS object property assignment `h[k] = v` on a string-keyed record:
overwrite the existing entry in place when the key is present, otherwise
append a new entry. -/
def setHeader (h : List (String × String)) (k v : String) : List (String × String) :=
  if h.any (fun p => p.1 = k) then
    h.map (fun p => if p.1 = k then (k, v) else p)
  else h ++ [(k, v)]

/-- JS object property read `h[k]`. -/
def getHeader (h : List (String × String)) (k : String) : Option String :=
  (h.find? (fun p => p.1 = k)).map Prod.snd

/-- Header construction `HttpClient.buildHeaders` (`src/client.ts` lines
67 to 88): the JSON defaults, then the `Authorization` assignment from the
apiKey when truthy, then from the token when truthy, then `Object.assign`
of the caller's additional headers — in that source order (an absent
`additionalHeaders` argument is the empty list). -/
def HttpClient.buildHeaders (c : HttpClient F)
    (additionalHeaders : List (String × String)) : List (String × String) :=
  let headers := [("Content-Type", "application/json"), ("Accept", "application/json")]
  let headers :=
    match c.apiKey with
    | some k => if k != "" then setHeader headers "Authorization" ("Bearer " ++ k) else headers
    | none => headers
  let headers :=
    match c.token with
    | some t => if t != "" then setHeader headers "Authorization" ("Bearer " ++ t) else headers
    | none => headers
  additionalHeaders.foldl (fun acc p => setHeader acc p.1 p.2) headers

/-- Credential the configuration selects for the `Authorization` header:
the token when truthy, else the apiKey when truthy, else none (spec-side
description of the precedence rule, used to state the claims). -/
def configuredCredential (c : HttpClient F) : Option String :=
  if truthyStr c.token then c.token
  else if truthyStr c.apiKey then c.apiKey
  else none

/-- Outcome of one invocation of the transport primitive: an HTTP response
(status, the JSON parse of the body — `none` when parsing fails — and the
status text), an abort of the armed timeout, or another thrown error. -/
inductive TransportResult where
  | response (status : Nat) (json : Option MQLError) (statusText : String)
  | abortError
  | otherError (message : String)

/-- Result of a buffered request: resolved (the success body is not
modelled), or rejected with an `MQLAPIError`. -/
inductive RequestResult where
  | ok (status : Nat)
  | err (e : MQLAPIError)
deriving DecidableEq, Repr

/-- Observable outcome of one buffered request: the result, the number of
transport invocations performed, and the `sleep` durations in order. -/
structure RunOutcome where
  result : RequestResult
  attempts : Nat
  delays : List Nat
deriving DecidableEq, Repr

/-- Retry loop `HttpClient.requestWithRetry` (`src/client.ts` lines 110 to
178), with the transport modelled as a function from the attempt index
(`retryCount`) to that attempt's outcome, and with the attempt count and
the backoff sleeps recorded.  Mirrors the source paths: 2xx resolves;
other statuses parse the error body (synthesizing one from the status text
on parse failure), retry after `min(1000 * 2 ^ retryCount, 10000)` ms on
status ≥ 500 while attempts remain, otherwise reject with
`MQLAPIError.fromResponse`; an abort of the armed timeout rejects with
status 408 and no retry; other thrown errors retry while attempts remain
and otherwise reject with status 0. -/
def requestWithRetry (f : Nat → TransportResult) (maxRetries retryCount : Nat) :
    RunOutcome :=
  match f retryCount with
  | .response status json statusText =>
    if 200 ≤ status ∧ status < 300 then
      ⟨.ok status, retryCount + 1, []⟩
    else
      let errorBody : MQLError := json.getD ⟨statusText, none, none⟩
      if h : 500 ≤ status ∧ retryCount < maxRetries then
        let rest := requestWithRetry f maxRetries (retryCount + 1)
        ⟨rest.result, rest.attempts, min (1000 * 2 ^ retryCount) 10000 :: rest.delays⟩
      else
        ⟨.err (MQLAPIError.fromResponse errorBody status), retryCount + 1, []⟩
  | .abortError => ⟨.err ⟨"Request timeout", 408, none, none⟩, retryCount + 1, []⟩
  | .otherError msg =>
    if h : retryCount < maxRetries then
      let rest := requestWithRetry f maxRetries (retryCount + 1)
      ⟨rest.result, rest.attempts, min (1000 * 2 ^ retryCount) 10000 :: rest.delays⟩
    else
      ⟨.err ⟨msg, 0, none, none⟩, retryCount + 1, []⟩
termination_by maxRetries - retryCount
decreasing_by
  all_goals omega

/-- Buffered request on a constructed client: `requestWithRetry` from
attempt `0` with the client's transport and retry limit. -/
def HttpClient.request (c : HttpClient (Nat → TransportResult)) : RunOutcome :=
  requestWithRetry c.fetchFn c.maxRetries 0

/-- Transport that always answers with status 500 and the parseable error
body `body`. -/
def always500 (body : MQLError) (statusText : String) : Nat → TransportResult :=
  fun _ => .response 500 (some body) statusText

/-- Newline split `buffer.split(newline)` on character lists: the
newline-separated segments, in order.  Always nonempty; the final segment
is the text after the last newline. -/
def splitNl : List Char → List (List Char)
  | [] => [[]]
  | c :: cs =>
    if c = '\n' then [] :: splitNl cs
    else
      match splitNl cs with
      | [] => [[c]]
      | l :: ls => (c :: l) :: ls

/-- Prepend a pending partial line to the head of a segment list. -/
def consHead (p : List Char) : List (List Char) → List (List Char)
  | [] => [p]
  | l :: ls => (p ++ l) :: ls

/-- State of the stream decode loop: the pending partial line, the
payloads yielded so far (in order), and whether the generator has returned
on the sentinel. -/
structure StreamState where
  buffer : List Char
  yielded : List (List Char)
  done : Bool
deriving DecidableEq, Repr

/-- Literal line marker `data: ` of the event-stream framing. -/
def dataMarker : List Char := "data: ".toList

/-- Terminal sentinel `[DONE]`. -/
def doneSentinel : List Char := "[DONE]".toList

/-- Body of the `for (const line of lines)` loop: on a `data: ` line, stop
on the sentinel or yield the payload `data = line.slice(6)`; other lines
are ignored.  After the generator has returned, nothing further happens. -/
def processLine (s : StreamState) (line : List Char) : StreamState :=
  if s.done then s
  else if dataMarker.isPrefixOf line then
    if line.drop 6 = doneSentinel then { s with done := true }
    else { s with yielded := s.yielded ++ [line.drop 6] }
  else s

/-- One `reader.read()` delivery: append the chunk to the buffer, split on
newlines, keep the final partial segment (`lines.pop()`) as the new
buffer, and run the line loop over the complete segments. -/
def feedChunk (s : StreamState) (chunk : List Char) : StreamState :=
  if s.done then s
  else
    (splitNl (s.buffer ++ chunk)).dropLast.foldl processLine
      { s with buffer := (splitNl (s.buffer ++ chunk)).getLast?.getD [] }

/-- Flush of the remaining buffer after the byte stream ends, producing
the final yielded sequence (no flush happens when the generator already
returned on the sentinel). -/
def flushStream (s : StreamState) : List (List Char) :=
  if s.done then s.yielded
  else if dataMarker.isPrefixOf s.buffer then
    if s.buffer.drop 6 = doneSentinel then s.yielded else s.yielded ++ [s.buffer.drop 6]
  else s.yielded

/-- Initial state of the decode loop. -/
def initStream : StreamState := ⟨[], [], false⟩

/-- Payload sequence produced by `HttpClient.stream`'s decode loop on a
response body delivered as the given chunks (chunk boundaries modelled at
character granularity: `TextDecoder` reassembles split code points, and
for ASCII bodies byte and character chunkings coincide). -/
def streamOutput (chunks : List (List Char)) : List (List Char) :=
  flushStream (chunks.foldl feedChunk initStream)

/-- Equivalence of decode states up to the unobservable buffer of a state
whose generator has already returned. -/
def SEq (s t : StreamState) : Prop :=
  s.done = t.done ∧ s.yielded = t.yielded ∧ (s.done = false → s.buffer = t.buffer)

/-! ## Helper lemmas: the retry loop -/

theorem run_always500 (body : MQLError) (st : String) (maxRetries : Nat) :
    ∀ retryCount, retryCount ≤ maxRetries →
      requestWithRetry (always500 body st) maxRetries retryCount =
        ⟨.err (MQLAPIError.fromResponse body 500), maxRetries + 1,
          (List.range' retryCount (maxRetries - retryCount)).map
            (fun k => min (1000 * 2 ^ k) 10000)⟩ := by
  suffices h : ∀ n retryCount, retryCount ≤ maxRetries → maxRetries - retryCount = n →
      requestWithRetry (always500 body st) maxRetries retryCount =
        ⟨.err (MQLAPIError.fromResponse body 500), maxRetries + 1,
          (List.range' retryCount (maxRetries - retryCount)).map
            (fun k => min (1000 * 2 ^ k) 10000)⟩ by
    intro rc hle
    exact h (maxRetries - rc) rc hle rfl
  intro n
  induction n with
  | zero =>
    intro rc hle heq
    have hrc : rc = maxRetries := by omega
    subst hrc
    rw [requestWithRetry.eq_def]
    simp [always500, heq]
  | succ n ih =>
    intro rc hle heq
    have hlt : rc < maxRetries := by omega
    rw [requestWithRetry.eq_def]
    simp only [always500, Option.getD_some]
    rw [if_neg (by omega), dif_pos ⟨by omega, hlt⟩]
    rw [ih (rc + 1) (by omega) (by omega)]
    have h2 : maxRetries - (rc + 1) = n := by omega
    have h1 : maxRetries - rc = n + 1 := heq
    rw [h2, h1]
    have hcons : List.range' rc (n + 1) = rc :: List.range' (rc + 1) n := rfl
    rw [hcons]
    simp [List.map_cons]

theorem orElseNum_ne_zero (x : Option Nat) (d : Nat) (hd : d ≠ 0) : orElseNum x d ≠ 0 := by
  cases x with
  | none => exact hd
  | some n =>
    by_cases h : n = 0
    · simp only [orElseNum, h, if_pos]
      exact hd
    · simp only [orElseNum, h, if_neg]
      exact h

/-! ## Helper lemmas: header maps -/

theorem find?_assign_other (t : List (String × String)) (k k' v : String)
    (hne : k' ≠ k) :
    List.find? (fun p => decide (p.1 = k')) (t.map (fun p => if p.1 = k then (k, v) else p)) =
      List.find? (fun p => decide (p.1 = k')) t := by
  induction t with
  | nil => rfl
  | cons p t ih =>
    rw [List.map_cons]
    by_cases hp : p.1 = k
    · have h1 : ¬ ((k : String) = k') := fun hh => hne hh.symm
      have h2 : ¬ (p.1 = k') := by rw [hp]; exact h1
      rw [if_pos hp]
      rw [List.find?_cons_of_neg _ (by simpa using h1),
        List.find?_cons_of_neg _ (by simpa using h2), ih]
    · rw [if_neg hp]
      by_cases hp' : p.1 = k'
      · rw [List.find?_cons_of_pos _ (by simpa using hp'),
          List.find?_cons_of_pos _ (by simpa using hp')]
      · rw [List.find?_cons_of_neg _ (by simpa using hp'),
          List.find?_cons_of_neg _ (by simpa using hp'), ih]

theorem getHeader_setHeader_same (h : List (String × String)) (k v : String) :
    getHeader (setHeader h k v) k = some v := by
  unfold getHeader setHeader
  by_cases hany : h.any (fun p => decide (p.1 = k)) = true
  · rw [if_pos hany]
    induction h with
    | nil => simp at hany
    | cons p t ih =>
      by_cases hp : p.1 = k
      · simp [List.find?, hp]
      · have ht : t.any (fun p => decide (p.1 = k)) = true := by
          simpa [hp] using hany
        simpa [List.find?, hp] using ih ht
  · rw [if_neg hany]
    induction h with
    | nil => simp [List.find?]
    | cons p t ih =>
      have hp : ¬ p.1 = k := by
        intro hk
        exact hany (by simp [hk])
      have ht : ¬ t.any (fun p => decide (p.1 = k)) = true := by
        intro hk
        exact hany (by simp [List.any_cons, hk])
      simpa [List.find?, hp] using ih ht

theorem getHeader_setHeader_other (h : List (String × String)) (k k' v : String)
    (hne : k' ≠ k) : getHeader (setHeader h k v) k' = getHeader h k' := by
  unfold getHeader setHeader
  by_cases hany : h.any (fun p => decide (p.1 = k)) = true
  · rw [if_pos hany, find?_assign_other h k k' v hne]
  · rw [if_neg hany]
    have hk : ¬ (((k, v) : String × String).1 = k') := fun hh => hne hh.symm
    rw [List.find?_append]
    rw [List.find?_cons_of_neg _ (by simpa using hk)]
    simp [List.find?]

theorem getHeader_foldl_of_absent (add : List (String × String))
    (h : List (String × String)) (k : String) (hadd : ∀ p ∈ add, p.1 ≠ k) :
    getHeader (add.foldl (fun acc p => setHeader acc p.1 p.2) h) k = getHeader h k := by
  induction add generalizing h with
  | nil => rfl
  | cons p t ih =>
    rw [List.foldl_cons]
    rw [ih _ (fun q hq => hadd q (List.mem_cons_of_mem _ hq))]
    exact getHeader_setHeader_other h p.1 k p.2
      (fun hh => hadd p (List.mem_cons_self _ _) hh.symm)

theorem getHeader_foldl_last (add : List (String × String))
    (h : List (String × String)) (k v : String) :
    getHeader ((add ++ [(k, v)]).foldl (fun acc p => setHeader acc p.1 p.2) h) k = some v := by
  rw [List.foldl_append]
  exact getHeader_setHeader_same _ k v

theorem buildHeaders_foldl (F : Type) (c : HttpClient F) (add : List (String × String)) :
    c.buildHeaders add = add.foldl (fun acc p => setHeader acc p.1 p.2) (c.buildHeaders []) :=
  rfl

theorem getHeader_buildHeaders_auth (F : Type) (c : HttpClient F) (cred : String)
    (hcred : configuredCredential c = some cred) :
    getHeader (c.buildHeaders []) "Authorization" = some ("Bearer " ++ cred) := by
  cases htok : c.token with
  | some t =>
    by_cases ht : t = ""
    · subst ht
      simp [configuredCredential, truthyStr, htok] at hcred
      cases hak : c.apiKey with
      | some k =>
        rw [hak] at hcred
        by_cases hk : k = ""
        · subst hk; simp at hcred
        · have hk' : (k != "") = true := by simpa using hk
          obtain rfl : k = cred := Option.some.inj hcred.2
          simp only [HttpClient.buildHeaders, htok, hak, hk', if_true, List.foldl_nil,
            bne_self_eq_false, Bool.false_eq_true, if_false]
          exact getHeader_setHeader_same _ _ _
      | none => rw [hak] at hcred; simp at hcred
    · have ht' : (t != "") = true := by simpa using ht
      simp only [configuredCredential, truthyStr, htok, ht', if_true] at hcred
      obtain rfl : t = cred := Option.some.inj hcred
      simp only [HttpClient.buildHeaders, htok, ht', if_true, List.foldl_nil]
      exact getHeader_setHeader_same _ _ _
  | none =>
    simp [configuredCredential, truthyStr, htok] at hcred
    cases hak : c.apiKey with
    | some k =>
      rw [hak] at hcred
      by_cases hk : k = ""
      · subst hk; simp at hcred
      · have hk' : (k != "") = true := by simpa using hk
        obtain rfl : k = cred := Option.some.inj hcred.2
        simp only [HttpClient.buildHeaders, htok, hak, hk', if_true, List.foldl_nil]
        exact getHeader_setHeader_same _ _ _
    | none => rw [hak] at hcred; simp at hcred

/-! ## Helper lemmas: stream decode -/

theorem splitNl_ne_nil (l : List Char) : splitNl l ≠ [] := by
  cases l with
  | nil => simp [splitNl]
  | cons c cs =>
    by_cases hc : c = '\n'
    · simp [splitNl, hc]
    · simp only [splitNl, if_neg hc]
      cases splitNl cs <;> simp

theorem splitNl_cons_nl (cs : List Char) : splitNl ('\n' :: cs) = [] :: splitNl cs := by
  simp [splitNl]

theorem splitNl_cons_char (c : Char) (hc : ¬ c = '\n') (cs : List Char) :
    splitNl (c :: cs) =
      match splitNl cs with
      | [] => [[c]]
      | l :: ls => (c :: l) :: ls := by
  simp only [splitNl, if_neg hc]

theorem splitNl_getLast_no_nl (l : List Char) :
    '\n' ∉ ((splitNl l).getLast?.getD []) := by
  induction l with
  | nil => simp [splitNl]
  | cons c cs ih =>
    by_cases hc : c = '\n'
    · subst hc
      rw [splitNl_cons_nl]
      cases hcs : splitNl cs with
      | nil => exact absurd hcs (splitNl_ne_nil cs)
      | cons x xs =>
        rw [List.getLast?_cons_cons]
        rw [hcs] at ih
        exact ih
    · rw [splitNl_cons_char c hc]
      cases hcs : splitNl cs with
      | nil => exact absurd hcs (splitNl_ne_nil cs)
      | cons x xs =>
        rw [hcs] at ih
        cases xs with
        | nil =>
          simp only [List.getLast?_singleton, Option.getD_some] at ih ⊢
          intro hmem
          rcases List.mem_cons.mp hmem with h | h
          · exact hc h.symm
          · exact ih h
        | cons x2 xs2 =>
          rw [List.getLast?_cons_cons] at ih ⊢
          exact ih

theorem splitNl_of_no_nl (l : List Char) (h : '\n' ∉ l) : splitNl l = [l] := by
  induction l with
  | nil => rfl
  | cons c cs ih =>
    have hc : ¬ c = '\n' := fun hcc => h (hcc ▸ List.mem_cons_self c cs)
    have hcs : '\n' ∉ cs := fun hm => h (List.mem_cons_of_mem c hm)
    rw [splitNl_cons_char c hc, ih hcs]

theorem splitNl_append (a b : List Char) :
    splitNl (a ++ b) =
      (splitNl a).dropLast ++ consHead ((splitNl a).getLast?.getD []) (splitNl b) := by
  induction a with
  | nil =>
    show splitNl b = ([[]] : List (List Char)).dropLast ++
      consHead (([[]] : List (List Char)).getLast?.getD []) (splitNl b)
    rw [List.dropLast_single, List.getLast?_singleton, Option.getD_some, List.nil_append]
    cases hb : splitNl b with
    | nil => exact absurd hb (splitNl_ne_nil b)
    | cons x xs => simp [consHead]
  | cons c cs ih =>
    by_cases hc : c = '\n'
    · subst hc
      rw [List.cons_append, splitNl_cons_nl, splitNl_cons_nl, ih]
      cases hcs : splitNl cs with
      | nil => exact absurd hcs (splitNl_ne_nil cs)
      | cons x xs =>
        cases xs with
        | nil =>
          rw [List.dropLast_cons₂, List.dropLast_single, List.getLast?_cons_cons,
            List.getLast?_singleton]
          rfl
        | cons x2 xs2 =>
          rw [List.dropLast_cons₂, List.getLast?_cons_cons]
          rfl
    · rw [List.cons_append, splitNl_cons_char c hc, splitNl_cons_char c hc, ih]
      cases hcs : splitNl cs with
      | nil => exact absurd hcs (splitNl_ne_nil cs)
      | cons x xs =>
        cases xs with
        | nil =>
          rw [List.dropLast_single, List.getLast?_singleton, Option.getD_some, List.nil_append]
          cases hb : splitNl b with
          | nil => exact absurd hb (splitNl_ne_nil b)
          | cons y ys =>
            show (c :: (x ++ y)) :: ys =
              ([(c :: x)] : List (List Char)).dropLast ++
                consHead (([(c :: x)] : List (List Char)).getLast?.getD []) (y :: ys)
            rw [List.dropLast_single, List.getLast?_singleton, Option.getD_some, List.nil_append]
            show (c :: (x ++ y)) :: ys = ((c :: x) ++ y) :: ys
            rw [List.cons_append]
        | cons x2 xs2 =>
          show (c :: x) :: ((x2 :: xs2).dropLast ++
              consHead ((x2 :: xs2).getLast?.getD []) (splitNl b)) =
            ((c :: x) :: x2 :: xs2).dropLast ++
              consHead (((c :: x) :: x2 :: xs2).getLast?.getD []) (splitNl b)
          rw [List.dropLast_cons₂, List.getLast?_cons_cons, List.cons_append]

theorem processLine_buffer (s : StreamState) (line : List Char) :
    (processLine s line).buffer = s.buffer := by
  unfold processLine
  split
  · rfl
  · split
    · split <;> rfl
    · rfl

theorem processLine_set_buffer (s : StreamState) (b : List Char) (line : List Char) :
    processLine { s with buffer := b } line = { processLine s line with buffer := b } := by
  unfold processLine
  cases hd : s.done
  · simp only [hd, Bool.false_eq_true, if_false]
    split
    · split <;> simp [hd]
    · simp [hd]
  · simp [hd]

theorem processLine_done (s : StreamState) (line : List Char) (h : s.done = true) :
    processLine s line = s := by
  unfold processLine
  rw [if_pos h]

theorem foldl_processLine_set_buffer (L : List (List Char)) (s : StreamState) (b : List Char) :
    L.foldl processLine { s with buffer := b } = { L.foldl processLine s with buffer := b } := by
  induction L generalizing s with
  | nil => rfl
  | cons l t ih =>
    rw [List.foldl_cons, List.foldl_cons, processLine_set_buffer, ih]

theorem foldl_processLine_done (L : List (List Char)) (s : StreamState) (h : s.done = true) :
    L.foldl processLine s = s := by
  induction L with
  | nil => rfl
  | cons l t ih =>
    rw [List.foldl_cons, processLine_done s l h, ih]

theorem foldl_processLine_buffer (L : List (List Char)) (s : StreamState) :
    (L.foldl processLine s).buffer = s.buffer := by
  induction L generalizing s with
  | nil => rfl
  | cons l t ih =>
    rw [List.foldl_cons, ih, processLine_buffer]

theorem SEq.refl (s : StreamState) : SEq s s := ⟨rfl, rfl, fun _ => rfl⟩

theorem SEq.trans {s t u : StreamState} (h1 : SEq s t) (h2 : SEq t u) : SEq s u :=
  ⟨h1.1.trans h2.1, h1.2.1.trans h2.2.1,
   fun hd => (h1.2.2 hd).trans (h2.2.2 (h1.1 ▸ hd))⟩

theorem SEq.eq_of_not_done {s t : StreamState} (h : SEq s t) (hd : s.done = false) : s = t := by
  cases s; cases t
  obtain ⟨h1, h2, h3⟩ := h
  simp_all

theorem SEq.feed {s t : StreamState} (h : SEq s t) (c : List Char) :
    SEq (feedChunk s c) (feedChunk t c) := by
  cases hd : s.done
  · rw [h.eq_of_not_done hd]
    exact SEq.refl _
  · have ht : t.done = true := h.1 ▸ hd
    unfold feedChunk
    rw [if_pos hd, if_pos ht]
    exact h

theorem SEq.flush {s t : StreamState} (h : SEq s t) : flushStream s = flushStream t := by
  cases hd : s.done
  · rw [h.eq_of_not_done hd]
  · have ht : t.done = true := h.1 ▸ hd
    unfold flushStream
    rw [if_pos hd, if_pos ht, h.2.1]

theorem feedChunk_done (s : StreamState) (c : List Char) (h : s.done = true) :
    feedChunk s c = s := by
  unfold feedChunk
  rw [if_pos h]

theorem feedChunk_not_done (b : List Char) (y : List (List Char)) (c : List Char) :
    feedChunk ⟨b, y, false⟩ c =
      { (splitNl (b ++ c)).dropLast.foldl processLine (⟨b, y, false⟩ : StreamState) with
          buffer := (splitNl (b ++ c)).getLast?.getD [] } := by
  unfold feedChunk
  rw [if_neg (by simp)]
  exact foldl_processLine_set_buffer _ _ _

theorem consHead_ne_nil (p : List Char) (l : List (List Char)) : consHead p l ≠ [] := by
  cases l <;> simp [consHead]

theorem feedChunk_append (s : StreamState) (c1 c2 : List Char) :
    SEq (feedChunk (feedChunk s c1) c2) (feedChunk s (c1 ++ c2)) := by
  obtain ⟨b, y, d⟩ := s
  cases d
  case true =>
    rw [feedChunk_done _ c1 rfl, feedChunk_done _ c2 rfl, feedChunk_done _ (c1 ++ c2) rfl]
    exact SEq.refl _
  case false =>
    rw [feedChunk_not_done b y c1, feedChunk_not_done b y (c1 ++ c2)]
    have hr1 : '\n' ∉ ((splitNl (b ++ c1)).getLast?.getD []) := splitNl_getLast_no_nl _
    have hsplit1 : splitNl (((splitNl (b ++ c1)).getLast?.getD []) ++ c2) =
        consHead ((splitNl (b ++ c1)).getLast?.getD []) (splitNl c2) := by
      rw [splitNl_append, splitNl_of_no_nl _ hr1, List.dropLast_single,
        List.getLast?_singleton, Option.getD_some, List.nil_append]
    have htot : splitNl (b ++ (c1 ++ c2)) =
        (splitNl (b ++ c1)).dropLast ++
          consHead ((splitNl (b ++ c1)).getLast?.getD []) (splitNl c2) := by
      rw [← List.append_assoc, splitNl_append (b ++ c1) c2]
    rw [htot]
    set F1 := (splitNl (b ++ c1)).dropLast.foldl processLine (⟨b, y, false⟩ : StreamState)
      with hF1
    set r1 := (splitNl (b ++ c1)).getLast?.getD [] with hr1def
    set C := consHead r1 (splitNl c2) with hC
    have hCne : C ≠ [] := consHead_ne_nil _ _
    rw [List.dropLast_append_of_ne_nil _ hCne, List.getLast?_append_of_ne_nil _ hCne,
      List.foldl_append]
    cases hd1 : F1.done
    · have hstate : ({ F1 with buffer := r1 } : StreamState) =
          (⟨r1, F1.yielded, false⟩ : StreamState) := by
        rw [← hd1]
      rw [hstate, feedChunk_not_done, hsplit1]
      have hstate2 : (⟨r1, F1.yielded, false⟩ : StreamState) = { F1 with buffer := r1 } := by
        rw [← hd1]
      rw [hstate2, foldl_processLine_set_buffer]
      exact SEq.refl _
    · rw [feedChunk_done _ c2 (by simpa using hd1)]
      rw [foldl_processLine_done _ F1 hd1]
      exact ⟨by simp [hd1], rfl, by intro hfalse; simp [hd1] at hfalse⟩

theorem foldl_feedChunk_join (chunks : List (List Char)) (s : StreamState)
    (h : '\n' ∉ s.buffer) :
    SEq (chunks.foldl feedChunk s) (feedChunk s chunks.flatten) := by
  induction chunks generalizing s with
  | nil =>
    rw [List.foldl_nil, List.flatten]
    cases hd : s.done
    · obtain ⟨b, y, d⟩ := s
      cases d
      · rw [feedChunk_not_done, List.append_nil]
        rw [splitNl_of_no_nl b (by simpa using h), List.dropLast_single,
          List.getLast?_singleton, Option.getD_some, List.foldl_nil]
        exact SEq.refl _
      · simp at hd
    · rw [feedChunk_done _ _ hd]
      exact SEq.refl _
  | cons c cs ih =>
    rw [List.foldl_cons, List.flatten]
    have hbuf : '\n' ∉ (feedChunk s c).buffer := by
      obtain ⟨b, y, d⟩ := s
      cases d
      · rw [feedChunk_not_done]
        exact splitNl_getLast_no_nl _
      · rw [feedChunk_done _ _ rfl]
        exact h
    exact (ih (feedChunk s c) hbuf).trans
      ((feedChunk_append s c cs.flatten).trans (SEq.refl _))

theorem streamOutput_chunking (chunks : List (List Char)) :
    streamOutput chunks = streamOutput [chunks.flatten] := by
  unfold streamOutput
  rw [List.foldl_cons, List.foldl_nil]
  exact (foldl_feedChunk_join chunks initStream (by simp [initStream])).flush

/-! ## Claims -/

/-- C1 (counterexample): the claim's header order is wrong on the code.
With an apiKey configured, a caller-supplied `Authorization` entry in the
additional headers survives the merge — the outgoing header equals the
caller's value, not the credential's Bearer value, because `Object.assign`
of the additional headers runs after the credential assignment. -/
theorem headers_auth_last_cex :
    getHeader
      ((⟨[], some "k", none, 30000, 3, ()⟩ : HttpClient Unit).buildHeaders
        [("Authorization", "Custom")]) "Authorization" = some "Custom" ∧
    getHeader
      ((⟨[], some "k", none, 30000, 3, ()⟩ : HttpClient Unit).buildHeaders
        [("Authorization", "Custom")]) "Authorization" ≠ some ("Bearer " ++ "k") := by
  decide

/-- C1 (amended): headers are built by setting the JSON defaults, then the
`Authorization` assignment from the configured credential (token over
apiKey), then merging caller-supplied additional headers last.  Hence when
a credential is configured and the caller supplies no `Authorization`
entry, the outgoing `Authorization` equals the credential's Bearer value;
and a caller-supplied `Authorization` entry overrides the credential. -/
theorem headers_credential_bearer (F : Type) (c : HttpClient F)
    (add : List (String × String)) (hadd : ∀ p ∈ add, p.1 ≠ "Authorization")
    (cred : String) (hcred : configuredCredential c = some cred) :
    getHeader (c.buildHeaders add) "Authorization" = some ("Bearer " ++ cred) ∧
    ∀ v, getHeader (c.buildHeaders (add ++ [("Authorization", v)])) "Authorization" = some v := by
  constructor
  · rw [buildHeaders_foldl, getHeader_foldl_of_absent add _ _ hadd]
    exact getHeader_buildHeaders_auth F c cred hcred
  · intro v
    rw [buildHeaders_foldl]
    exact getHeader_foldl_last _ _ _ _

/-- C1 (witness): the amended header claim applied to a client with both
credentials and one non-auth additional header. -/
theorem headers_credential_bearer_witness :
    (∀ p ∈ ([("X-Trace", "1")] : List (String × String)), p.1 ≠ "Authorization") ∧
    configuredCredential (⟨[], some "k", some "t", 30000, 3, ()⟩ : HttpClient Unit) = some "t" ∧
    (getHeader ((⟨[], some "k", some "t", 30000, 3, ()⟩ : HttpClient Unit).buildHeaders
        [("X-Trace", "1")]) "Authorization" = some ("Bearer " ++ "t") ∧
      ∀ v, getHeader ((⟨[], some "k", some "t", 30000, 3, ()⟩ : HttpClient Unit).buildHeaders
        ([("X-Trace", "1")] ++ [("Authorization", v)])) "Authorization" = some v) :=
  ⟨by decide, by decide,
    headers_credential_bearer Unit ⟨[], some "k", some "t", 30000, 3, ()⟩
      [("X-Trace", "1")] (by decide) "t" (by decide)⟩

/-- C2 (counterexample): the claim fails at `maxRetries = 0`.  A client
constructed with `maxRetries := 0` performs 4 transport invocations
against an always-500 transport, not `0 + 1`, because the constructor's
`|| 3` fallback treats 0 as absent. -/
theorem retries_zero_cex :
    (HttpClient.ofOptions
        ({ maxRetries := some 0, fetch := some (always500 ⟨"boom", none, none⟩ "ise") } :
          MQLClientOptions (Nat → TransportResult))
        (always500 ⟨"boom", none, none⟩ "ise")).request.attempts = 4 ∧
    (HttpClient.ofOptions
        ({ maxRetries := some 0, fetch := some (always500 ⟨"boom", none, none⟩ "ise") } :
          MQLClientOptions (Nat → TransportResult))
        (always500 ⟨"boom", none, none⟩ "ise")).request.attempts ≠ 0 + 1 := by
  have h : (HttpClient.ofOptions
      ({ maxRetries := some 0, fetch := some (always500 ⟨"boom", none, none⟩ "ise") } :
        MQLClientOptions (Nat → TransportResult))
      (always500 ⟨"boom", none, none⟩ "ise")).request =
      requestWithRetry (always500 ⟨"boom", none, none⟩ "ise") 3 0 := rfl
  rw [h, run_always500 ⟨"boom", none, none⟩ "ise" 3 0 (by omega)]
  exact ⟨rfl, by decide⟩

/-- C2 (amended, for `N ≥ 1`): a client constructed with `maxRetries = N`
against a transport that always returns status 500 with a parseable error
body performs exactly `N + 1` transport invocations and rejects with an
`MQLAPIError` carrying the payload's message, code and details and
status 500.  (For `N = 0` the `|| 3` fallback applies instead, see the
counterexample and C10.) -/
theorem always500_attempts (N : Nat) (hN : 1 ≤ N) (body : MQLError) (st : String)
    (b : Option (List Char)) (a t : Option String) (ti : Option Nat) :
    (HttpClient.ofOptions
        { baseUrl := b, apiKey := a, token := t, timeout := ti,
          maxRetries := some N, fetch := some (always500 body st) }
        (always500 body st)).request.result =
      .err ⟨body.error, 500, body.code, body.details⟩ ∧
    (HttpClient.ofOptions
        { baseUrl := b, apiKey := a, token := t, timeout := ti,
          maxRetries := some N, fetch := some (always500 body st) }
        (always500 body st)).request.attempts = N + 1 := by
  have hmr : (HttpClient.ofOptions
      { baseUrl := b, apiKey := a, token := t, timeout := ti,
        maxRetries := some N, fetch := some (always500 body st) }
      (always500 body st)).maxRetries = N := by
    simp only [HttpClient.ofOptions, orElseNum]
    rw [if_neg (by omega)]
  have hf : (HttpClient.ofOptions
      { baseUrl := b, apiKey := a, token := t, timeout := ti,
        maxRetries := some N, fetch := some (always500 body st) }
      (always500 body st)).fetchFn = always500 body st := rfl
  unfold HttpClient.request
  rw [hmr, hf]
  rw [run_always500 body st N 0 (Nat.zero_le N)]
  exact ⟨rfl, rfl⟩

/-- C2 (witness): the amended retry-exhaustion claim at `N = 2`. -/
theorem always500_attempts_witness :
    1 ≤ 2 ∧
    ((HttpClient.ofOptions
        { baseUrl := none, apiKey := none, token := none, timeout := none,
          maxRetries := some 2, fetch := some (always500 ⟨"boom", some "ERR", none⟩ "ise") }
        (always500 ⟨"boom", some "ERR", none⟩ "ise")).request.result =
      .err ⟨"boom", 500, some "ERR", none⟩ ∧
    (HttpClient.ofOptions
        { baseUrl := none, apiKey := none, token := none, timeout := none,
          maxRetries := some 2, fetch := some (always500 ⟨"boom", some "ERR", none⟩ "ise") }
        (always500 ⟨"boom", some "ERR", none⟩ "ise")).request.attempts = 2 + 1) :=
  ⟨by decide,
    always500_attempts 2 (by decide) ⟨"boom", some "ERR", none⟩ "ise" none none none none⟩

/-- C3: the recorded backoff sleeps of a run that retries at attempts
`0 .. N-1` are exactly `min (1000 * 2 ^ k) 10000` for `k = 0 .. N-1`; in
particular the first four delays are 1000, 2000, 4000, 8000 ms, every
delay is at most 10000 ms, and attempt 5 yields 10000, not 32000. -/
theorem backoff_delays (N : Nat) (body : MQLError) (st : String) :
    (requestWithRetry (always500 body st) N 0).delays =
      (List.range N).map (fun k => min (1000 * 2 ^ k) 10000) ∧
    (List.range 4).map (fun k => min (1000 * 2 ^ k) 10000) = [1000, 2000, 4000, 8000] ∧
    (∀ k, min (1000 * 2 ^ k) 10000 ≤ 10000) ∧
    min (1000 * 2 ^ 5) 10000 = 10000 := by
  refine ⟨?_, by decide, fun k => min_le_right _ _, by decide⟩
  rw [run_always500 body st N 0 (Nat.zero_le N)]
  rw [List.range_eq_range']
  rfl

/-- C4: a transport response with a non-2xx status below 500 is never
retried, regardless of `maxRetries`: exactly one transport invocation
occurs and the request rejects immediately with the response status and
the parsed payload's message, code and details. -/
theorem client_error_no_retry (status : Nat) (h2xx : ¬(200 ≤ status ∧ status < 300))
    (h5 : status < 500) (body : MQLError) (st : String) (maxRetries : Nat) :
    requestWithRetry (fun _ => .response status (some body) st) maxRetries 0 =
      ⟨.err (MQLAPIError.fromResponse body status), 1, []⟩ := by
  have h5' : ¬ (500 ≤ status) := by omega
  rw [requestWithRetry.eq_def]
  simp [h2xx, h5']

/-- C4 (witness): the no-retry claim at status 404 with the spec's example
body. -/
theorem client_error_no_retry_witness :
    (¬(200 ≤ 404 ∧ 404 < 300)) ∧ 404 < 500 ∧
    requestWithRetry
        (fun _ => .response 404 (some ⟨"not found", some "NOT_FOUND", none⟩) "Not Found") 7 0 =
      ⟨.err (MQLAPIError.fromResponse ⟨"not found", some "NOT_FOUND", none⟩ 404), 1, []⟩ :=
  ⟨by decide, by decide,
    client_error_no_retry 404 (by decide) (by decide) ⟨"not found", some "NOT_FOUND", none⟩
      "Not Found" 7⟩

/-- C5: when the transport invocation at any attempt index fails with the
abort of the armed timeout, the request rejects with message
"Request timeout" and status 408, with no further transport invocation and
no backoff sleep. -/
theorem timeout_no_retry (f : Nat → TransportResult) (maxRetries retryCount : Nat)
    (h : f retryCount = .abortError) :
    requestWithRetry f maxRetries retryCount =
      ⟨.err ⟨"Request timeout", 408, none, none⟩, retryCount + 1, []⟩ := by
  rw [requestWithRetry.eq_def, h]

/-- C5 (witness): the timeout claim at attempt index 2 with retries
remaining. -/
theorem timeout_no_retry_witness :
    (fun _ : Nat => TransportResult.abortError) 2 = TransportResult.abortError ∧
    requestWithRetry (fun _ => TransportResult.abortError) 5 2 =
      ⟨.err ⟨"Request timeout", 408, none, none⟩, 2 + 1, []⟩ :=
  ⟨rfl, timeout_no_retry (fun _ => TransportResult.abortError) 5 2 rfl⟩

/-- C6: on the spec's example body, under every chunking of the response
text into reads, the decode loop yields exactly the two payloads in order
and terminates on the `[DONE]` sentinel without yielding it. -/
theorem stream_decode_example (chunks : List (List Char))
    (h : chunks.flatten =
      "data: \x7b\"x\":1\x7d\n\ndata: \x7b\"x\":2\x7d\n\ndata: [DONE]\n".toList) :
    streamOutput chunks = ["\x7b\"x\":1\x7d".toList, "\x7b\"x\":2\x7d".toList] := by
  rw [streamOutput_chunking, h]
  decide

/-- C6 (witness): the chunking claim at a two-chunk split that cuts one of
the `data: ` lines in half. -/
theorem stream_decode_example_witness :
    (["data: \x7b\"x\":1\x7d\n\nda".toList,
        "ta: \x7b\"x\":2\x7d\n\ndata: [DONE]\n".toList] : List (List Char)).flatten =
      "data: \x7b\"x\":1\x7d\n\ndata: \x7b\"x\":2\x7d\n\ndata: [DONE]\n".toList ∧
    streamOutput
        ["data: \x7b\"x\":1\x7d\n\nda".toList,
          "ta: \x7b\"x\":2\x7d\n\ndata: [DONE]\n".toList] =
      ["\x7b\"x\":1\x7d".toList, "\x7b\"x\":2\x7d".toList] :=
  ⟨by decide,
    stream_decode_example
      ["data: \x7b\"x\":1\x7d\n\nda".toList, "ta: \x7b\"x\":2\x7d\n\ndata: [DONE]\n".toList]
      (by decide)⟩

/-- C7: a client configured with both a truthy apiKey and a truthy token
sends, on a request without additional headers, exactly one
`Authorization` header, and its value is the token's Bearer value (the
token assignment runs after the apiKey assignment). -/
theorem auth_token_precedence (F : Type) (c : HttpClient F) (k t : String)
    (hak : c.apiKey = some k) (htk : c.token = some t)
    (hk : k ≠ "") (ht : t ≠ "") :
    (c.buildHeaders []).filter (fun p => p.1 = "Authorization") =
      [("Authorization", "Bearer " ++ t)] := by
  have hk' : (k != "") = true := by simpa using hk
  have ht' : (t != "") = true := by simpa using ht
  simp only [HttpClient.buildHeaders, hak, htk, hk', ht', if_true, List.foldl_nil]
  simp [setHeader]

/-- C7 (witness): the precedence claim on a concrete client with both
credentials. -/
theorem auth_token_precedence_witness :
    ("key" : String) ≠ "" ∧ ("tok" : String) ≠ "" ∧
    ((⟨[], some "key", some "tok", 30000, 3, ()⟩ : HttpClient Unit).buildHeaders []).filter
      (fun p => p.1 = "Authorization") = [("Authorization", "Bearer " ++ "tok")] :=
  ⟨by decide, by decide,
    auth_token_precedence Unit ⟨[], some "key", some "tok", 30000, 3, ()⟩ "key" "tok"
      rfl rfl (by decide) (by decide)⟩

/-- C8 (counterexample): the claim fails on a supplied base URL ending in
two slashes — the single-match replace removes only one of them, so the
stored base URL still ends with a slash. -/
theorem baseUrl_trailing_cex :
    ((HttpClient.ofOptions ({ baseUrl := some "https://a//".toList } : MQLClientOptions Unit)
        ()).baseUrl).getLast? = some '/' := by
  decide

/-- C8 (amended): the constructor removes one trailing slash, so whenever
the effective pre-normalization URL (the supplied one, or the default for
an absent or empty option) does not end in two slashes, the stored base
URL does not end with a slash. -/
theorem baseUrl_normalized (F : Type) (options : MQLClientOptions F) (f : F)
    (h : ¬((orElseStr options.baseUrl defaultBaseUrl).getLast? = some '/' ∧
        (orElseStr options.baseUrl defaultBaseUrl).dropLast.getLast? = some '/')) :
    (HttpClient.ofOptions options f).baseUrl.getLast? ≠ some '/' := by
  unfold HttpClient.ofOptions stripTrailingSlash
  by_cases hs : (orElseStr options.baseUrl defaultBaseUrl).getLast? = some '/'
  · rw [if_pos hs]
    intro hd
    exact h ⟨hs, hd⟩
  · rw [if_neg hs]
    exact hs

/-- C8 (witness): the normalization claim at a URL with one trailing
slash. -/
theorem baseUrl_normalized_witness :
    (¬((orElseStr (some "https://api.example.com/".toList) defaultBaseUrl).getLast? = some '/' ∧
        (orElseStr (some "https://api.example.com/".toList)
          defaultBaseUrl).dropLast.getLast? = some '/')) ∧
    (HttpClient.ofOptions ({ baseUrl := some "https://api.example.com/".toList } :
        MQLClientOptions Unit) ()).baseUrl.getLast? ≠ some '/' :=
  ⟨by decide,
    baseUrl_normalized Unit { baseUrl := some "https://api.example.com/".toList } () (by decide)⟩

/-- C9 (counterexample): the claim fails on a client whose stored base URL
still ends with a slash (constructed from a URL ending in two slashes):
`updateAuth` re-runs the constructor, which strips another slash, so the
derived client's base URL differs from the original's. -/
theorem updateAuth_baseUrl_cex :
    ((HttpClient.ofOptions ({ baseUrl := some "https://a//".toList } : MQLClientOptions Unit)
        ()).updateAuth none none).baseUrl ≠
      (HttpClient.ofOptions ({ baseUrl := some "https://a//".toList } : MQLClientOptions Unit)
        ()).baseUrl := by
  decide

/-- C9 (amended): for a constructed client whose stored base URL is
nonempty and does not end with a slash, `updateAuth` yields a client with
the same base URL, timeout, retry limit and transport function, and with
the credentials replaced by the nullish-coalescing rule (an omitted
apiKey or token keeps the original's value).  The original is unchanged by
construction in this functional model. -/
theorem updateAuth_preserves_config (F : Type) (options : MQLClientOptions F) (f : F)
    (newKey newTok : Option String)
    (hb : (HttpClient.ofOptions options f).baseUrl ≠ [])
    (hsl : (HttpClient.ofOptions options f).baseUrl.getLast? ≠ some '/') :
    ((HttpClient.ofOptions options f).updateAuth newKey newTok).baseUrl =
        (HttpClient.ofOptions options f).baseUrl ∧
    ((HttpClient.ofOptions options f).updateAuth newKey newTok).timeout =
        (HttpClient.ofOptions options f).timeout ∧
    ((HttpClient.ofOptions options f).updateAuth newKey newTok).maxRetries =
        (HttpClient.ofOptions options f).maxRetries ∧
    ((HttpClient.ofOptions options f).updateAuth newKey newTok).fetchFn =
        (HttpClient.ofOptions options f).fetchFn ∧
    ((HttpClient.ofOptions options f).updateAuth newKey newTok).apiKey =
        (newKey.orElse fun _ => (HttpClient.ofOptions options f).apiKey) ∧
    ((HttpClient.ofOptions options f).updateAuth newKey newTok).token =
        (newTok.orElse fun _ => (HttpClient.ofOptions options f).token) := by
  have htime : (HttpClient.ofOptions options f).timeout ≠ 0 :=
    orElseNum_ne_zero options.timeout 30000 (by omega)
  have hmr : (HttpClient.ofOptions options f).maxRetries ≠ 0 :=
    orElseNum_ne_zero options.maxRetries 3 (by omega)
  refine ⟨?_, ?_, ?_, rfl, rfl, rfl⟩
  · show stripTrailingSlash
        (if (HttpClient.ofOptions options f).baseUrl = [] then defaultBaseUrl
          else (HttpClient.ofOptions options f).baseUrl) =
      (HttpClient.ofOptions options f).baseUrl
    rw [if_neg hb]
    unfold stripTrailingSlash
    rw [if_neg hsl]
  · show (if (HttpClient.ofOptions options f).timeout = 0 then 30000
        else (HttpClient.ofOptions options f).timeout) =
      (HttpClient.ofOptions options f).timeout
    rw [if_neg htime]
  · show (if (HttpClient.ofOptions options f).maxRetries = 0 then 3
        else (HttpClient.ofOptions options f).maxRetries) =
      (HttpClient.ofOptions options f).maxRetries
    rw [if_neg hmr]

/-- C9 (witness): the amended preservation claim on a concrete client with
a clean base URL, deriving with a new apiKey. -/
theorem updateAuth_preserves_config_witness :
    (HttpClient.ofOptions ({ baseUrl := some "https://x".toList } : MQLClientOptions Unit)
        ()).baseUrl ≠ [] ∧
    (HttpClient.ofOptions ({ baseUrl := some "https://x".toList } : MQLClientOptions Unit)
        ()).baseUrl.getLast? ≠ some '/' ∧
    ((HttpClient.ofOptions ({ baseUrl := some "https://x".toList } : MQLClientOptions Unit)
        ()).updateAuth (some "nk") none).baseUrl =
      (HttpClient.ofOptions ({ baseUrl := some "https://x".toList } : MQLClientOptions Unit)
        ()).baseUrl :=
  ⟨by decide, by decide,
    (updateAuth_preserves_config Unit { baseUrl := some "https://x".toList } ()
      (some "nk") none (by decide) (by decide)).1⟩

/-- C10: construction with `maxRetries := 0` yields the same client as
`maxRetries := 3`, and `timeout := 0` the same as `timeout := 30000` (the
`|| 3` and `|| 30000` fallbacks treat the falsy 0 as absent); hence a
buffered request on a `maxRetries := 0` client against an always-500
transport performs 4 attempts, not 1 — retries cannot be disabled by
passing 0. -/
theorem falsy_options_default (F : Type) (b : Option (List Char)) (a t : Option String)
    (ti mr : Option Nat) (fe : Option F) (f : F) (body : MQLError) (st : String) :
    HttpClient.ofOptions
        { baseUrl := b, apiKey := a, token := t, timeout := ti,
          maxRetries := some 0, fetch := fe } f =
      HttpClient.ofOptions
        { baseUrl := b, apiKey := a, token := t, timeout := ti,
          maxRetries := some 3, fetch := fe } f ∧
    HttpClient.ofOptions
        { baseUrl := b, apiKey := a, token := t, timeout := some 0,
          maxRetries := mr, fetch := fe } f =
      HttpClient.ofOptions
        { baseUrl := b, apiKey := a, token := t, timeout := some 30000,
          maxRetries := mr, fetch := fe } f ∧
    (HttpClient.ofOptions
        ({ maxRetries := some 0, fetch := some (always500 body st) } :
          MQLClientOptions (Nat → TransportResult))
        (always500 body st)).request.attempts = 4 := by
  refine ⟨rfl, rfl, ?_⟩
  have h : (HttpClient.ofOptions
      ({ maxRetries := some 0, fetch := some (always500 body st) } :
        MQLClientOptions (Nat → TransportResult))
      (always500 body st)).request = requestWithRetry (always500 body st) 3 0 := rfl
  rw [h, run_always500 body st 3 0 (by omega)]

end MQL
